import Mathlib

/-!
Verification of the core algorithms of the `normal-notepad` text editor:
the cursor-position to line/column mapper (`src/line_column.rs`) and the
encoding-aware file load/save logic (`src/file_io.rs`).

Texts are modelled as lists of Unicode scalar values (`List Char`, matching
Rust's `str::chars()`), byte buffers as `List Nat` with values below 256, and
the `i32` counters of `calculate_line_column` as `Int`.  The platform
ANSI/Shift-JIS code-page conversion (`MultiByteToWideChar` /
`WideCharToMultiByte`) is an external capability of the host and is passed in
as an explicit codec parameter, as §6/§9 of the design notes direct.
-/

/-! ## Position mapper (`src/line_column.rs`) -/

/-- Loop body of `calculate_line_column`: walks the remaining characters with
the running `line`, `col` and `utf16_pos` counters, mirroring the Rust
`while let` loop including the early `break`s and the CRLF peek. -/
def lcLoop (cursorPos : Int) : List Char → Int → Int → Int → Int × Int
  | [], line, col, _ => (line, col)
  | c :: rest, line, col, pos =>
    if pos ≥ cursorPos then (line, col)
    else
      let w : Int := if 0xFFFF < c.toNat then 2 else 1
      if c = '\r' then
        match rest with
        | c2 :: rest2 =>
          if c2 = '\n' then
            if pos + w + 1 ≥ cursorPos then (line + 1, 1)
            else lcLoop cursorPos rest2 (line + 1) 1 (pos + w + 1)
          else
            if pos + w ≥ cursorPos then (line + 1, 1)
            else lcLoop cursorPos (c2 :: rest2) (line + 1) 1 (pos + w)
        | [] =>
          if pos + w ≥ cursorPos then (line + 1, 1)
          else lcLoop cursorPos [] (line + 1) 1 (pos + w)
      else if c = '\n' then
        if pos + w ≥ cursorPos then (line + 1, 1)
        else lcLoop cursorPos rest (line + 1) 1 (pos + w)
      else if c ≠ '\x00' then
        if pos + w ≥ cursorPos then (line, col + 1)
        else lcLoop cursorPos rest line (col + 1) (pos + w)
      else
        lcLoop cursorPos rest line col (pos + w)

/-- Model of `calculate_line_column(text, cursor_pos)`: both counters start at
1 and the UTF-16 position starts at 0. -/
def calculate_line_column (text : List Char) (cursor_pos : Int) : Int × Int :=
  lcLoop cursor_pos text 1 1 0

/-- Total UTF-16 length of a text: supplementary-plane scalars weigh 2. -/
def utf16Len : List Char → Int
  | [] => 0
  | c :: rest => (if 0xFFFF < c.toNat then 2 else 1) + utf16Len rest

/-- State of the line/column walk after consuming the whole list, i.e. the
value `calculate_line_column` returns once iteration exhausts. -/
def walkAll : List Char → Int → Int → Int × Int
  | [], line, col => (line, col)
  | c :: rest, line, col =>
    if c = '\r' then
      match rest with
      | c2 :: rest2 =>
        if c2 = '\n' then walkAll rest2 (line + 1) 1
        else walkAll (c2 :: rest2) (line + 1) 1
      | [] => walkAll [] (line + 1) 1
    else if c = '\n' then walkAll rest (line + 1) 1
    else if c ≠ '\x00' then walkAll rest line (col + 1)
    else walkAll rest line col

example : calculate_line_column ['h','e','l','l','o'] 0 = (1, 1) := by decide
example : calculate_line_column ['h','e','l','l','o',' ','w'] 5 = (1, 6) := by decide
example : calculate_line_column ['h','e','l','l','o','\r','\n','w','o','r','l','d'] 7 = (2, 1) := by decide
example : calculate_line_column ['h','e','l','l','o','\r','\n','w','o','r','l','d'] 9 = (2, 3) := by decide
example : calculate_line_column ['h','e','l','l','o','\r','\n','w','o','r','l','d'] 12 = (2, 6) := by decide
example : calculate_line_column ['あ','い','う','\r','\n','え','お'] 4 = (2, 1) := by decide
example : calculate_line_column ['あ','い','う','\r','\n','え','お'] 6 = (2, 2) := by decide
example : calculate_line_column ['l','i','n','e','1','\r','\n','\r','\n','l','i','n','e','3'] 7 = (2, 1) := by decide

/-! ## Encoding codec (`src/file_io.rs`) -/

/-- The `FileEncoding` enum of `file_io.rs`. -/
inductive FileEncoding where
  | Utf8
  | Utf8Bom
  | Utf16Le
  | Utf16Be
  | ShiftJis
  | Auto
deriving DecidableEq

/-- UTF-8 bytes of one Unicode scalar value (model of Rust `str` storage /
`String::as_bytes`). -/
def utf8EncodeChar (c : Char) : List Nat :=
  let n := c.toNat
  if n < 0x80 then [n]
  else if n < 0x800 then [0xC0 + n / 64, 0x80 + n % 64]
  else if n < 0x10000 then
    [0xE0 + n / 4096, 0x80 + n / 64 % 64, 0x80 + n % 64]
  else
    [0xF0 + n / 262144, 0x80 + n / 4096 % 64, 0x80 + n / 64 % 64, 0x80 + n % 64]

/-- UTF-8 byte sequence of a text. -/
def encodeUtf8 : List Char → List Nat
  | [] => []
  | c :: cs => utf8EncodeChar c ++ encodeUtf8 cs

/-- Strict UTF-8 validation and decoding, the model of `String::from_utf8` and
of the validating read in `fs::read_to_string`: rejects overlong forms,
surrogate code points, out-of-range values and truncated sequences. -/
def utf8Decode : List Nat → Option (List Char)
  | [] => some []
  | b0 :: rest =>
    if b0 < 0x80 then
      (utf8Decode rest).map (fun cs => Char.ofNat b0 :: cs)
    else if b0 < 0xC2 then none
    else
      match rest with
      | [] => none
      | b1 :: rest1 =>
        if b0 < 0xE0 then
          if 0x80 ≤ b1 ∧ b1 < 0xC0 then
            (utf8Decode rest1).map (fun cs => Char.ofNat ((b0 - 0xC0) * 64 + (b1 - 0x80)) :: cs)
          else none
        else
          match rest1 with
          | [] => none
          | b2 :: rest2 =>
            if b0 < 0xF0 then
              if (0x80 ≤ b1 ∧ b1 < 0xC0) ∧ (0x80 ≤ b2 ∧ b2 < 0xC0) ∧
                  ¬(b0 = 0xE0 ∧ b1 < 0xA0) ∧ ¬(b0 = 0xED ∧ 0xA0 ≤ b1) then
                (utf8Decode rest2).map
                  (fun cs => Char.ofNat ((b0 - 0xE0) * 4096 + (b1 - 0x80) * 64 + (b2 - 0x80)) :: cs)
              else none
            else
              match rest2 with
              | [] => none
              | b3 :: rest3 =>
                if b0 < 0xF5 then
                  if (0x80 ≤ b1 ∧ b1 < 0xC0) ∧ (0x80 ≤ b2 ∧ b2 < 0xC0) ∧ (0x80 ≤ b3 ∧ b3 < 0xC0) ∧
                      ¬(b0 = 0xF0 ∧ b1 < 0x90) ∧ ¬(b0 = 0xF4 ∧ 0x90 ≤ b1) then
                    (utf8Decode rest3).map
                      (fun cs =>
                        Char.ofNat
                          ((b0 - 0xF0) * 262144 + (b1 - 0x80) * 4096 + (b2 - 0x80) * 64 + (b3 - 0x80)) :: cs)
                  else none
                else none

/-- UTF-16 code units of one scalar value (model of `char::encode_utf16`):
BMP scalars are one unit, supplementary-plane scalars a surrogate pair. -/
def utf16EncodeChar (c : Char) : List Nat :=
  let n := c.toNat
  if n < 0x10000 then [n]
  else [0xD800 + (n - 0x10000) / 1024, 0xDC00 + (n - 0x10000) % 1024]

/-- UTF-16 code-unit sequence of a text (model of `str::encode_utf16`). -/
def encodeUtf16 : List Char → List Nat
  | [] => []
  | c :: cs => utf16EncodeChar c ++ encodeUtf16 cs

/-- Permissive UTF-16 decoding, the model of `String::from_utf16_lossy`:
well-formed surrogate pairs are combined, unpaired surrogates become
U+FFFD, and the decode never fails. -/
def utf16LossyDecode : List Nat → List Char
  | [] => []
  | u :: rest =>
    if u < 0xD800 ∨ 0xE000 ≤ u then Char.ofNat u :: utf16LossyDecode rest
    else if u < 0xDC00 then
      match rest with
      | u2 :: rest2 =>
        if 0xDC00 ≤ u2 ∧ u2 < 0xE000 then
          Char.ofNat (0x10000 + (u - 0xD800) * 1024 + (u2 - 0xDC00)) :: utf16LossyDecode rest2
        else Char.ofNat 0xFFFD :: utf16LossyDecode (u2 :: rest2)
      | [] => [Char.ofNat 0xFFFD]
    else Char.ofNat 0xFFFD :: utf16LossyDecode rest

/-- Model of `bytes.chunks_exact(2).map(u16::from_le_bytes)`: pairs of bytes
become little-endian 16-bit units; a trailing unpaired byte is dropped. -/
def chunksToU16LE : List Nat → List Nat
  | b0 :: b1 :: rest => (b0 + b1 * 256) :: chunksToU16LE rest
  | _ => []

/-- Model of `bytes.chunks_exact(2).map(u16::from_be_bytes)`. -/
def chunksToU16BE : List Nat → List Nat
  | b0 :: b1 :: rest => (b0 * 256 + b1) :: chunksToU16BE rest
  | _ => []

/-- Little-endian byte serialisation of UTF-16 code units, mirroring the
`save_file` loop `push(word & 0xFF); push(word >> 8)`. -/
def utf16leBytes : List Nat → List Nat
  | [] => []
  | w :: ws => (w &&& 0xFF) :: (w >>> 8) :: utf16leBytes ws

/-- Big-endian byte serialisation of UTF-16 code units, mirroring the
`save_file` loop `push(word >> 8); push(word & 0xFF)`. -/
def utf16beBytes : List Nat → List Nat
  | [] => []
  | w :: ws => (w >>> 8) :: (w &&& 0xFF) :: utf16beBytes ws

/-- Model of `slice::starts_with`: the first argument is the pattern. -/
def startsWithBytes : List Nat → List Nat → Bool
  | [], _ => true
  | _ :: _, [] => false
  | p :: ps, b :: bs => p == b && startsWithBytes ps bs

/-- Byte-level model of `save_file` (the filesystem write abstracted away):
given the host ANSI encoder `ansiEnc` (the `WideCharToMultiByte` capability),
the text and the requested encoding, produce the written bytes. -/
def save_file (ansiEnc : List Char → List Nat) (content : List Char) :
    FileEncoding → List Nat
  | .Utf8 => encodeUtf8 content
  | .Auto => encodeUtf8 content
  | .Utf8Bom => [0xEF, 0xBB, 0xBF] ++ encodeUtf8 content
  | .Utf16Le => [0xFF, 0xFE] ++ utf16leBytes (encodeUtf16 content)
  | .Utf16Be => [0xFE, 0xFF] ++ utf16beBytes (encodeUtf16 content)
  | .ShiftJis => ansiEnc content

/-- Byte-level model of `load_file` (the filesystem read abstracted away):
given the host ANSI decoder `ansiDec` (the `MultiByteToWideChar` capability),
the file bytes and the requested encoding, produce the decoded text and the
resolved tag, or `none` for a strict-UTF-8 `DecodeError`. -/
def load_file (ansiDec : List Nat → List Char) (bytes : List Nat) :
    FileEncoding → Option (List Char × FileEncoding)
  | .Utf8 => (utf8Decode bytes).map (fun content => (content, FileEncoding.Utf8))
  | .Utf8Bom =>
    let body := if startsWithBytes [0xEF, 0xBB, 0xBF] bytes then bytes.drop 3 else bytes
    (utf8Decode body).map (fun content => (content, FileEncoding.Utf8Bom))
  | .Utf16Le =>
    let start := if startsWithBytes [0xFF, 0xFE] bytes then 2 else 0
    some (utf16LossyDecode (chunksToU16LE (bytes.drop start)), FileEncoding.Utf16Le)
  | .Utf16Be =>
    let start := if startsWithBytes [0xFE, 0xFF] bytes then 2 else 0
    some (utf16LossyDecode (chunksToU16BE (bytes.drop start)), FileEncoding.Utf16Be)
  | .ShiftJis => some (ansiDec bytes, FileEncoding.ShiftJis)
  | .Auto =>
    if startsWithBytes [0xFF, 0xFE] bytes then
      some (utf16LossyDecode (chunksToU16LE (bytes.drop 2)), FileEncoding.Utf16Le)
    else if startsWithBytes [0xFE, 0xFF] bytes then
      some (utf16LossyDecode (chunksToU16BE (bytes.drop 2)), FileEncoding.Utf16Be)
    else if startsWithBytes [0xEF, 0xBB, 0xBF] bytes then
      (utf8Decode (bytes.drop 3)).map (fun content => (content, FileEncoding.Utf8Bom))
    else
      match utf8Decode bytes with
      | some content => some (content, FileEncoding.Utf8)
      | none => some (ansiDec bytes, FileEncoding.ShiftJis)

example : encodeUtf8 ['A', 'é', 'あ'] = [0x41, 0xC3, 0xA9, 0xE3, 0x81, 0x82] := by decide
example : utf8Decode [0x41, 0xC3, 0xA9, 0xE3, 0x81, 0x82] = some ['A', 'é', 'あ'] := by decide
example : utf8Decode [0xC0, 0x80] = none := by decide
example : utf8Decode [0xED, 0xA0, 0x80] = none := by decide
example : utf8Decode [0xFF] = none := by decide
example : encodeUtf16 [Char.ofNat 0x1F600] = [0xD83D, 0xDE00] := by decide
example : utf16LossyDecode [0xD83D, 0xDE00] = [Char.ofNat 0x1F600] := by decide
example : utf16LossyDecode [0xD83D] = [Char.ofNat 0xFFFD] := by decide
example :
    save_file (fun _ => []) ['A', 'あ'] FileEncoding.Utf16Le =
      [0xFF, 0xFE, 0x41, 0x00, 0x42, 0x30] := by decide
example :
    load_file (fun _ => []) [0xFF, 0xFE, 0x41, 0x00, 0x42, 0x30] FileEncoding.Auto =
      some (['A', 'あ'], FileEncoding.Utf16Le) := by decide

/-! ## Helper lemmas -/

/-- Unicode scalar values are below U+110000 and outside the surrogate range. -/
theorem char_toNat_valid (c : Char) :
    c.toNat < 0xD800 ∨ (0xDFFF < c.toNat ∧ c.toNat < 0x110000) := c.valid

theorem and_255_eq_mod (w : Nat) : w &&& 0xFF = w % 256 := by
  have h := Nat.and_pow_two_sub_one_eq_mod w 8
  norm_num at h
  exact h

theorem shiftRight_8_eq_div (w : Nat) : w >>> 8 = w / 256 := by
  have h := Nat.shiftRight_eq_div_pow w 8
  norm_num at h
  exact h

theorem utf16Len_nonneg (l : List Char) : 0 ≤ utf16Len l := by
  induction l with
  | nil => simp [utf16Len]
  | cons c rest ih =>
    simp only [utf16Len]
    split <;> omega

theorem utf16Len_eq_zero {l : List Char} (h : utf16Len l ≤ 0) : l = [] := by
  cases l with
  | nil => rfl
  | cons c rest =>
    exfalso
    have hr := utf16Len_nonneg rest
    simp only [utf16Len] at h
    split at h <;> omega

theorem lcLoop_cons_eq (cursor line col pos : Int) (c : Char) (rest : List Char) :
    lcLoop cursor (c :: rest) line col pos =
      if pos ≥ cursor then (line, col)
      else
        let w : Int := if 0xFFFF < c.toNat then 2 else 1
        if c = '\r' then
          match rest with
          | c2 :: rest2 =>
            if c2 = '\n' then
              if pos + w + 1 ≥ cursor then (line + 1, 1)
              else lcLoop cursor rest2 (line + 1) 1 (pos + w + 1)
            else
              if pos + w ≥ cursor then (line + 1, 1)
              else lcLoop cursor (c2 :: rest2) (line + 1) 1 (pos + w)
          | [] =>
            if pos + w ≥ cursor then (line + 1, 1)
            else lcLoop cursor [] (line + 1) 1 (pos + w)
        else if c = '\n' then
          if pos + w ≥ cursor then (line + 1, 1)
          else lcLoop cursor rest (line + 1) 1 (pos + w)
        else if c ≠ '\x00' then
          if pos + w ≥ cursor then (line, col + 1)
          else lcLoop cursor rest line (col + 1) (pos + w)
        else
          lcLoop cursor rest line col (pos + w) := by
  cases rest <;> rfl

theorem walkAll_cons_eq (line col : Int) (c : Char) (rest : List Char) :
    walkAll (c :: rest) line col =
      if c = '\r' then
        match rest with
        | c2 :: rest2 =>
          if c2 = '\n' then walkAll rest2 (line + 1) 1
          else walkAll (c2 :: rest2) (line + 1) 1
        | [] => walkAll [] (line + 1) 1
      else if c = '\n' then walkAll rest (line + 1) 1
      else if c ≠ '\x00' then walkAll rest line (col + 1)
      else walkAll rest line col := by
  cases rest <;> rfl

theorem lcLoop_stop (cursor : Int) (text : List Char) (line col pos : Int)
    (h : pos ≥ cursor) : lcLoop cursor text line col pos = (line, col) := by
  cases text with
  | nil => rfl
  | cons c rest => rw [lcLoop_cons_eq, if_pos h]

theorem lcLoop_crlf (cursor line col pos : Int) (rest2 : List Char)
    (hlt : ¬pos ≥ cursor) :
    lcLoop cursor ('\r' :: '\n' :: rest2) line col pos =
      if pos + 1 + 1 ≥ cursor then (line + 1, 1)
      else lcLoop cursor rest2 (line + 1) 1 (pos + 1 + 1) := by
  rw [lcLoop_cons_eq, if_neg hlt]
  simp

theorem lcLoop_cr_cons (cursor line col pos : Int) (c2 : Char) (rest2 : List Char)
    (hlt : ¬pos ≥ cursor) (hc2 : c2 ≠ '\n') :
    lcLoop cursor ('\r' :: c2 :: rest2) line col pos =
      if pos + 1 ≥ cursor then (line + 1, 1)
      else lcLoop cursor (c2 :: rest2) (line + 1) 1 (pos + 1) := by
  rw [lcLoop_cons_eq, if_neg hlt]
  simp [hc2]

theorem lcLoop_cr_nil (cursor line col pos : Int) (hlt : ¬pos ≥ cursor) :
    lcLoop cursor ['\r'] line col pos =
      if pos + 1 ≥ cursor then (line + 1, 1)
      else lcLoop cursor [] (line + 1) 1 (pos + 1) := by
  rw [lcLoop_cons_eq, if_neg hlt]
  simp

theorem lcLoop_lf (cursor line col pos : Int) (rest : List Char)
    (hlt : ¬pos ≥ cursor) :
    lcLoop cursor ('\n' :: rest) line col pos =
      if pos + 1 ≥ cursor then (line + 1, 1)
      else lcLoop cursor rest (line + 1) 1 (pos + 1) := by
  rw [lcLoop_cons_eq, if_neg hlt]
  simp

theorem lcLoop_nul (cursor line col pos : Int) (rest : List Char)
    (hlt : ¬pos ≥ cursor) :
    lcLoop cursor ('\x00' :: rest) line col pos = lcLoop cursor rest line col (pos + 1) := by
  rw [lcLoop_cons_eq, if_neg hlt]
  simp

theorem lcLoop_ord (cursor line col pos : Int) (c : Char) (rest : List Char)
    (hlt : ¬pos ≥ cursor) (h1 : c ≠ '\r') (h2 : c ≠ '\n') (h3 : c ≠ '\x00') :
    lcLoop cursor (c :: rest) line col pos =
      if pos + (if 0xFFFF < c.toNat then 2 else 1) ≥ cursor then (line, col + 1)
      else lcLoop cursor rest line (col + 1) (pos + (if 0xFFFF < c.toNat then 2 else 1)) := by
  rw [lcLoop_cons_eq, if_neg hlt]
  simp [h1, h2, h3]

theorem walkAll_crlf (line col : Int) (rest2 : List Char) :
    walkAll ('\r' :: '\n' :: rest2) line col = walkAll rest2 (line + 1) 1 := by
  rw [walkAll_cons_eq]
  simp

theorem walkAll_cr_cons (line col : Int) (c2 : Char) (rest2 : List Char) (hc2 : c2 ≠ '\n') :
    walkAll ('\r' :: c2 :: rest2) line col = walkAll (c2 :: rest2) (line + 1) 1 := by
  rw [walkAll_cons_eq]
  simp [hc2]

theorem walkAll_cr_nil (line col : Int) : walkAll ['\r'] line col = (line + 1, 1) := by
  rw [walkAll_cons_eq]
  simp
  rfl

theorem walkAll_lf (line col : Int) (rest : List Char) :
    walkAll ('\n' :: rest) line col = walkAll rest (line + 1) 1 := by
  rw [walkAll_cons_eq]
  simp

theorem walkAll_nul (line col : Int) (rest : List Char) :
    walkAll ('\x00' :: rest) line col = walkAll rest line col := by
  rw [walkAll_cons_eq]
  simp

theorem walkAll_ord (line col : Int) (c : Char) (rest : List Char)
    (h1 : c ≠ '\r') (h2 : c ≠ '\n') (h3 : c ≠ '\x00') :
    walkAll (c :: rest) line col = walkAll rest line (col + 1) := by
  rw [walkAll_cons_eq]
  simp [h1, h2, h3]

theorem utf16Len_cons (c : Char) (l : List Char) :
    utf16Len (c :: l) = (if 0xFFFF < c.toNat then 2 else 1) + utf16Len l := rfl

theorem utf16Len_cr (l : List Char) : utf16Len ('\r' :: l) = 1 + utf16Len l := by
  rw [utf16Len_cons, if_neg (show ¬0xFFFF < ('\r').toNat by decide)]

theorem utf16Len_lf (l : List Char) : utf16Len ('\n' :: l) = 1 + utf16Len l := by
  rw [utf16Len_cons, if_neg (show ¬0xFFFF < ('\n').toNat by decide)]

theorem utf16Len_nul (l : List Char) : utf16Len ('\x00' :: l) = 1 + utf16Len l := by
  rw [utf16Len_cons, if_neg (show ¬0xFFFF < ('\x00').toNat by decide)]

/-- Once the cursor lies at or beyond the UTF-16 end of the remaining text,
the loop's result is the state after consuming everything. -/
theorem lcLoop_ge_walkAll_aux :
    ∀ (n : Nat) (text : List Char), text.length ≤ n →
      ∀ (line col pos cursor : Int), pos + utf16Len text ≤ cursor →
        lcLoop cursor text line col pos = walkAll text line col := by
  intro n
  induction n with
  | zero =>
    intro text hlen line col pos cursor h
    have ht : text = [] := List.length_eq_zero.mp (Nat.le_zero.mp hlen)
    subst ht
    rfl
  | succ n ih =>
    intro text hlen line col pos cursor h
    cases text with
    | nil => rfl
    | cons c rest =>
      have hr := utf16Len_nonneg rest
      have hcw := utf16Len_cons c rest
      have hwb : (1 : Int) ≤ (if 0xFFFF < c.toNat then 2 else 1) ∧
          (if 0xFFFF < c.toNat then (2 : Int) else 1) ≤ 2 := by split <;> omega
      have hlt : ¬pos ≥ cursor := by omega
      by_cases hc : c = '\r'
      · subst hc
        cases rest with
        | nil =>
          rw [lcLoop_cr_nil cursor line col pos hlt, walkAll_cr_nil]
          split <;> rfl
        | cons c2 rest2 =>
          have hr2 := utf16Len_nonneg rest2
          by_cases hc2 : c2 = '\n'
          · subst hc2
            have hlen2 : utf16Len ('\r' :: '\n' :: rest2) = 1 + (1 + utf16Len rest2) := by
              rw [utf16Len_cr, utf16Len_lf]
            rw [lcLoop_crlf cursor line col pos rest2 hlt, walkAll_crlf]
            by_cases hstop : pos + 1 + 1 ≥ cursor
            · rw [if_pos hstop]
              have h2 : rest2 = [] := utf16Len_eq_zero (by omega)
              subst h2
              rfl
            · rw [if_neg hstop]
              exact ih rest2 (by simp at hlen; omega) (line + 1) 1 (pos + 1 + 1) cursor
                (by omega)
          · have hlen2 : utf16Len ('\r' :: c2 :: rest2) = 1 + utf16Len (c2 :: rest2) :=
              utf16Len_cr (c2 :: rest2)
            have hr3 := utf16Len_nonneg (c2 :: rest2)
            rw [lcLoop_cr_cons cursor line col pos c2 rest2 hlt hc2,
              walkAll_cr_cons line col c2 rest2 hc2]
            have hcw2 := utf16Len_cons c2 rest2
            have hwb2 : (1 : Int) ≤ (if 0xFFFF < c2.toNat then 2 else 1) ∧
                (if 0xFFFF < c2.toNat then (2 : Int) else 1) ≤ 2 := by split <;> omega
            rw [if_neg (show ¬pos + 1 ≥ cursor by omega)]
            exact ih (c2 :: rest2) (by simp at hlen ⊢; omega) (line + 1) 1 (pos + 1) cursor
              (by omega)
      · by_cases hn : c = '\n'
        · subst hn
          have hlen2 : utf16Len ('\n' :: rest) = 1 + utf16Len rest := utf16Len_lf rest
          rw [lcLoop_lf cursor line col pos rest hlt, walkAll_lf]
          by_cases hstop : pos + 1 ≥ cursor
          · rw [if_pos hstop]
            have h2 : rest = [] := utf16Len_eq_zero (by omega)
            subst h2
            rfl
          · rw [if_neg hstop]
            exact ih rest (by simp at hlen; omega) (line + 1) 1 (pos + 1) cursor (by omega)
        · by_cases h0 : c = '\x00'
          · subst h0
            have hlen2 : utf16Len ('\x00' :: rest) = 1 + utf16Len rest := utf16Len_nul rest
            rw [lcLoop_nul cursor line col pos rest hlt, walkAll_nul]
            exact ih rest (by simp at hlen; omega) line col (pos + 1) cursor (by omega)
          · rw [lcLoop_ord cursor line col pos c rest hlt hc hn h0,
              walkAll_ord line col c rest hc hn h0]
            by_cases hstop : pos + (if 0xFFFF < c.toNat then (2 : Int) else 1) ≥ cursor
            · rw [if_pos hstop]
              have h2 : rest = [] := utf16Len_eq_zero (by omega)
              subst h2
              rfl
            · rw [if_neg hstop]
              exact ih rest (by simp at hlen; omega) line (col + 1)
                (pos + (if 0xFFFF < c.toNat then 2 else 1)) cursor (by omega)

theorem lcLoop_ge_walkAll (text : List Char) (line col pos cursor : Int)
    (h : pos + utf16Len text ≤ cursor) :
    lcLoop cursor text line col pos = walkAll text line col :=
  lcLoop_ge_walkAll_aux text.length text le_rfl line col pos cursor h

/-- While the cursor lies strictly beyond a prefix of the text, the loop walks
that prefix exactly as `walkAll` does and continues on the suffix (provided
the suffix does not start with a line feed that a final CR of the prefix
would pair with). -/
theorem lcLoop_append_aux :
    ∀ (n : Nat) (pre : List Char), pre.length ≤ n →
      ∀ (suffix : List Char) (line col pos cursor : Int),
        pos + utf16Len pre < cursor → suffix.head? ≠ some '\n' →
        lcLoop cursor (pre ++ suffix) line col pos =
          lcLoop cursor suffix (walkAll pre line col).1 (walkAll pre line col).2
            (pos + utf16Len pre) := by
  intro n
  induction n with
  | zero =>
    intro pre hlen suffix line col pos cursor h hsuf
    have ht : pre = [] := List.length_eq_zero.mp (Nat.le_zero.mp hlen)
    subst ht
    have h0 : utf16Len [] = 0 := rfl
    simp [walkAll, h0]
  | succ n ih =>
    intro pre hlen suffix line col pos cursor h hsuf
    cases pre with
    | nil =>
      have h0 : utf16Len [] = 0 := rfl
      simp [walkAll, h0]
    | cons c pre' =>
      have hr := utf16Len_nonneg pre'
      have hcw := utf16Len_cons c pre'
      have hwb : (1 : Int) ≤ (if 0xFFFF < c.toNat then 2 else 1) ∧
          (if 0xFFFF < c.toNat then (2 : Int) else 1) ≤ 2 := by split <;> omega
      have hlt : ¬pos ≥ cursor := by omega
      by_cases hc : c = '\r'
      · subst hc
        cases pre' with
        | nil =>
          have harg : pos + utf16Len ['\r'] = pos + 1 := by
            rw [utf16Len_cr]
            have : utf16Len ([] : List Char) = 0 := rfl
            omega
          rw [walkAll_cr_nil, harg]
          cases suffix with
          | nil =>
            rw [List.append_nil, lcLoop_cr_nil cursor line col pos hlt,
              if_neg (show ¬pos + 1 ≥ cursor by omega)]
          | cons s ss =>
            have hs : s ≠ '\n' := by
              intro hcon
              rw [hcon] at hsuf
              exact hsuf rfl
            rw [List.cons_append, List.nil_append,
              lcLoop_cr_cons cursor line col pos s ss hlt hs,
              if_neg (show ¬pos + 1 ≥ cursor by omega)]
        | cons c2 pre'' =>
          have hr2 := utf16Len_nonneg pre''
          by_cases hc2 : c2 = '\n'
          · subst hc2
            have hlen2 : utf16Len ('\r' :: '\n' :: pre'') = 1 + (1 + utf16Len pre'') := by
              rw [utf16Len_cr, utf16Len_lf]
            have harg : pos + utf16Len ('\r' :: '\n' :: pre'') =
                pos + 1 + 1 + utf16Len pre'' := by omega
            rw [walkAll_crlf, harg]
            rw [show ('\r' :: '\n' :: pre'') ++ suffix = '\r' :: '\n' :: (pre'' ++ suffix)
              from rfl]
            rw [lcLoop_crlf cursor line col pos (pre'' ++ suffix) hlt,
              if_neg (show ¬pos + 1 + 1 ≥ cursor by omega)]
            exact ih pre'' (by simp at hlen; omega) suffix (line + 1) 1 (pos + 1 + 1) cursor
              (by omega) hsuf
          · have hlen2 : utf16Len ('\r' :: c2 :: pre'') = 1 + utf16Len (c2 :: pre'') :=
              utf16Len_cr (c2 :: pre'')
            have harg : pos + utf16Len ('\r' :: c2 :: pre'') =
                pos + 1 + utf16Len (c2 :: pre'') := by omega
            rw [walkAll_cr_cons line col c2 pre'' hc2, harg]
            rw [show ('\r' :: c2 :: pre'') ++ suffix = '\r' :: c2 :: (pre'' ++ suffix)
              from rfl]
            rw [lcLoop_cr_cons cursor line col pos c2 (pre'' ++ suffix) hlt hc2]
            have hr3 := utf16Len_nonneg (c2 :: pre'')
            have hcw2 := utf16Len_cons c2 pre''
            have hwb2 : (1 : Int) ≤ (if 0xFFFF < c2.toNat then 2 else 1) ∧
                (if 0xFFFF < c2.toNat then (2 : Int) else 1) ≤ 2 := by split <;> omega
            rw [if_neg (show ¬pos + 1 ≥ cursor by omega)]
            exact ih (c2 :: pre'') (by simp at hlen ⊢; omega) suffix (line + 1) 1 (pos + 1)
              cursor (by omega) hsuf
      · by_cases hn : c = '\n'
        · subst hn
          have hlen2 : utf16Len ('\n' :: pre') = 1 + utf16Len pre' := utf16Len_lf pre'
          have harg : pos + utf16Len ('\n' :: pre') = pos + 1 + utf16Len pre' := by omega
          rw [walkAll_lf, harg, List.cons_append,
            lcLoop_lf cursor line col pos (pre' ++ suffix) hlt,
            if_neg (show ¬pos + 1 ≥ cursor by omega)]
          exact ih pre' (by simp at hlen; omega) suffix (line + 1) 1 (pos + 1) cursor
            (by omega) hsuf
        · by_cases h0 : c = '\x00'
          · subst h0
            have hlen2 : utf16Len ('\x00' :: pre') = 1 + utf16Len pre' := utf16Len_nul pre'
            have harg : pos + utf16Len ('\x00' :: pre') = pos + 1 + utf16Len pre' := by omega
            rw [walkAll_nul, harg, List.cons_append,
              lcLoop_nul cursor line col pos (pre' ++ suffix) hlt]
            exact ih pre' (by simp at hlen; omega) suffix line col (pos + 1) cursor
              (by omega) hsuf
          · have harg : pos + utf16Len (c :: pre') =
                pos + (if 0xFFFF < c.toNat then 2 else 1) + utf16Len pre' := by omega
            rw [walkAll_ord line col c pre' hc hn h0, harg, List.cons_append,
              lcLoop_ord cursor line col pos c (pre' ++ suffix) hlt hc hn h0,
              if_neg (show ¬pos + (if 0xFFFF < c.toNat then (2 : Int) else 1) ≥ cursor
                by omega)]
            exact ih pre' (by simp at hlen; omega) suffix line (col + 1)
              (pos + (if 0xFFFF < c.toNat then 2 else 1)) cursor (by omega) hsuf

theorem lcLoop_append (pre suffix : List Char) (line col pos cursor : Int)
    (h : pos + utf16Len pre < cursor) (hsuf : suffix.head? ≠ some '\n') :
    lcLoop cursor (pre ++ suffix) line col pos =
      lcLoop cursor suffix (walkAll pre line col).1 (walkAll pre line col).2
        (pos + utf16Len pre) :=
  lcLoop_append_aux pre.length pre le_rfl suffix line col pos cursor h hsuf

/-- On break-free, NUL-free, BMP-only text the loop keeps `line = 1` and moves
the column in lock step with the UTF-16 position. -/
theorem lcLoop_flat :
    ∀ (text : List Char) (col pos k : Int),
      (∀ c ∈ text, c ≠ '\r' ∧ c ≠ '\n' ∧ c ≠ '\x00' ∧ c.toNat ≤ 0xFFFF) →
      pos < k → k ≤ pos + utf16Len text →
      lcLoop k text 1 col pos = (1, col + (k - pos)) := by
  intro text
  induction text with
  | nil =>
    intro col pos k hall hlt hle
    have h0 : utf16Len [] = 0 := rfl
    exact absurd hle (by omega)
  | cons c rest ih =>
    intro col pos k hall hlt hle
    obtain ⟨hcr, hlf, hnul, hbmp⟩ := hall c (by simp)
    have hw : (if 0xFFFF < c.toNat then (2 : Int) else 1) = 1 := by
      rw [if_neg (by omega)]
    have hlen2 : utf16Len (c :: rest) = 1 + utf16Len rest := by
      rw [utf16Len_cons, hw]
    rw [lcLoop_ord k 1 col pos c rest (by omega) hcr hlf hnul, hw]
    by_cases hstop : pos + 1 ≥ k
    · rw [if_pos hstop]
      have hk : k = pos + 1 := by omega
      subst hk
      have : col + (pos + 1 - pos) = col + 1 := by ring
      rw [this]
    · rw [if_neg hstop]
      have hrec := ih (col + 1) (pos + 1) k
        (fun c' hc' => hall c' (by simp [hc'])) (by omega) (by omega)
      rw [hrec]
      have : col + 1 + (k - (pos + 1)) = col + (k - pos) := by ring
      rw [this]

/-- Decoding the UTF-8 bytes of one scalar value from the front of a stream
peels off exactly that scalar. -/
theorem utf8Decode_encodeChar (c : Char) (bs : List Nat) :
    utf8Decode (utf8EncodeChar c ++ bs) = (utf8Decode bs).map (fun cs => c :: cs) := by
  have hv := char_toNat_valid c
  have hofn := Char.ofNat_toNat c
  unfold utf8EncodeChar
  by_cases h1 : c.toNat < 0x80
  · rw [if_pos h1]
    simp only [List.cons_append, List.nil_append]
    rw [utf8Decode.eq_def]
    simp only []
    rw [if_pos h1, hofn]
  · rw [if_neg h1]
    by_cases h2 : c.toNat < 0x800
    · rw [if_pos h2]
      simp only [List.cons_append, List.nil_append]
      rw [utf8Decode.eq_def]
      simp only []
      rw [if_neg (show ¬(0xC0 + c.toNat / 64 < 0x80) by omega),
        if_neg (show ¬(0xC0 + c.toNat / 64 < 0xC2) by omega),
        if_pos (show 0xC0 + c.toNat / 64 < 0xE0 by omega),
        if_pos (show 0x80 ≤ 0x80 + c.toNat % 64 ∧ 0x80 + c.toNat % 64 < 0xC0 by omega)]
      have harg : (0xC0 + c.toNat / 64 - 0xC0) * 64 + (0x80 + c.toNat % 64 - 0x80) =
          c.toNat := by omega
      rw [harg, hofn]
    · rw [if_neg h2]
      by_cases h3 : c.toNat < 0x10000
      · rw [if_pos h3]
        simp only [List.cons_append, List.nil_append]
        rw [utf8Decode.eq_def]
        simp only []
        rw [if_neg (show ¬(0xE0 + c.toNat / 4096 < 0x80) by omega),
          if_neg (show ¬(0xE0 + c.toNat / 4096 < 0xC2) by omega),
          if_neg (show ¬(0xE0 + c.toNat / 4096 < 0xE0) by omega),
          if_pos (show 0xE0 + c.toNat / 4096 < 0xF0 by omega),
          if_pos (show (0x80 ≤ 0x80 + c.toNat / 64 % 64 ∧ 0x80 + c.toNat / 64 % 64 < 0xC0) ∧
            (0x80 ≤ 0x80 + c.toNat % 64 ∧ 0x80 + c.toNat % 64 < 0xC0) ∧
            ¬(0xE0 + c.toNat / 4096 = 0xE0 ∧ 0x80 + c.toNat / 64 % 64 < 0xA0) ∧
            ¬(0xE0 + c.toNat / 4096 = 0xED ∧ 0xA0 ≤ 0x80 + c.toNat / 64 % 64) by omega)]
        have harg : (0xE0 + c.toNat / 4096 - 0xE0) * 4096 +
            (0x80 + c.toNat / 64 % 64 - 0x80) * 64 + (0x80 + c.toNat % 64 - 0x80) =
            c.toNat := by omega
        rw [harg, hofn]
      · rw [if_neg h3]
        simp only [List.cons_append, List.nil_append]
        rw [utf8Decode.eq_def]
        simp only []
        rw [if_neg (show ¬(0xF0 + c.toNat / 262144 < 0x80) by omega),
          if_neg (show ¬(0xF0 + c.toNat / 262144 < 0xC2) by omega),
          if_neg (show ¬(0xF0 + c.toNat / 262144 < 0xE0) by omega),
          if_neg (show ¬(0xF0 + c.toNat / 262144 < 0xF0) by omega),
          if_pos (show 0xF0 + c.toNat / 262144 < 0xF5 by omega),
          if_pos (show (0x80 ≤ 0x80 + c.toNat / 4096 % 64 ∧ 0x80 + c.toNat / 4096 % 64 < 0xC0) ∧
            (0x80 ≤ 0x80 + c.toNat / 64 % 64 ∧ 0x80 + c.toNat / 64 % 64 < 0xC0) ∧
            (0x80 ≤ 0x80 + c.toNat % 64 ∧ 0x80 + c.toNat % 64 < 0xC0) ∧
            ¬(0xF0 + c.toNat / 262144 = 0xF0 ∧ 0x80 + c.toNat / 4096 % 64 < 0x90) ∧
            ¬(0xF0 + c.toNat / 262144 = 0xF4 ∧ 0x90 ≤ 0x80 + c.toNat / 4096 % 64) by omega)]
        have harg : (0xF0 + c.toNat / 262144 - 0xF0) * 262144 +
            (0x80 + c.toNat / 4096 % 64 - 0x80) * 4096 +
            (0x80 + c.toNat / 64 % 64 - 0x80) * 64 + (0x80 + c.toNat % 64 - 0x80) =
            c.toNat := by omega
        rw [harg, hofn]

/-- Strict UTF-8 decoding inverts UTF-8 encoding. -/
theorem utf8Decode_encode (cs : List Char) : utf8Decode (encodeUtf8 cs) = some cs := by
  induction cs with
  | nil => rfl
  | cons c rest ih =>
    simp only [encodeUtf8, utf8Decode_encodeChar, ih]
    rfl

/-- Lossy UTF-16 decoding of one scalar value's code units from the front of a
stream peels off exactly that scalar. -/
theorem utf16LossyDecode_encodeChar (c : Char) (us : List Nat) :
    utf16LossyDecode (utf16EncodeChar c ++ us) = c :: utf16LossyDecode us := by
  have hv := char_toNat_valid c
  have hofn := Char.ofNat_toNat c
  unfold utf16EncodeChar
  by_cases h1 : c.toNat < 0x10000
  · rw [if_pos h1]
    simp only [List.cons_append, List.nil_append]
    rw [utf16LossyDecode.eq_def]
    simp only []
    rw [if_pos (show c.toNat < 0xD800 ∨ 0xE000 ≤ c.toNat by omega), hofn]
  · rw [if_neg h1]
    simp only [List.cons_append, List.nil_append]
    rw [utf16LossyDecode.eq_def]
    simp only []
    rw [if_neg (show ¬(0xD800 + (c.toNat - 0x10000) / 1024 < 0xD800 ∨
        0xE000 ≤ 0xD800 + (c.toNat - 0x10000) / 1024) by omega),
      if_pos (show 0xD800 + (c.toNat - 0x10000) / 1024 < 0xDC00 by omega),
      if_pos (show 0xDC00 ≤ 0xDC00 + (c.toNat - 0x10000) % 1024 ∧
        0xDC00 + (c.toNat - 0x10000) % 1024 < 0xE000 by omega)]
    have harg : 0x10000 + (0xD800 + (c.toNat - 0x10000) / 1024 - 0xD800) * 1024 +
        (0xDC00 + (c.toNat - 0x10000) % 1024 - 0xDC00) = c.toNat := by omega
    rw [harg, hofn]

/-- Lossy UTF-16 decoding inverts UTF-16 encoding. -/
theorem utf16LossyDecode_encode (cs : List Char) :
    utf16LossyDecode (encodeUtf16 cs) = cs := by
  induction cs with
  | nil => rfl
  | cons c rest ih => simp only [encodeUtf16, utf16LossyDecode_encodeChar, ih]

/-- Re-chunking the little-endian serialisation recovers the code units. -/
theorem chunksToU16LE_utf16leBytes (ws : List Nat) :
    chunksToU16LE (utf16leBytes ws) = ws := by
  induction ws with
  | nil => rfl
  | cons w rest ih =>
    simp only [utf16leBytes, chunksToU16LE, ih, and_255_eq_mod, shiftRight_8_eq_div]
    congr 1
    omega

/-- Re-chunking the big-endian serialisation recovers the code units. -/
theorem chunksToU16BE_utf16beBytes (ws : List Nat) :
    chunksToU16BE (utf16beBytes ws) = ws := by
  induction ws with
  | nil => rfl
  | cons w rest ih =>
    simp only [utf16beBytes, chunksToU16BE, ih, and_255_eq_mod, shiftRight_8_eq_div]
    congr 1
    omega

theorem load_file_utf8_eq (ansiDec : List Nat → List Char) (bytes : List Nat) :
    load_file ansiDec bytes FileEncoding.Utf8 =
      (utf8Decode bytes).map (fun content => (content, FileEncoding.Utf8)) := rfl

theorem load_file_utf8bom_eq (ansiDec : List Nat → List Char) (bytes : List Nat) :
    load_file ansiDec bytes FileEncoding.Utf8Bom =
      (utf8Decode (if startsWithBytes [0xEF, 0xBB, 0xBF] bytes then bytes.drop 3 else bytes)).map
        (fun content => (content, FileEncoding.Utf8Bom)) := rfl

theorem load_file_utf16le_eq (ansiDec : List Nat → List Char) (bytes : List Nat) :
    load_file ansiDec bytes FileEncoding.Utf16Le =
      some (utf16LossyDecode (chunksToU16LE
        (bytes.drop (if startsWithBytes [0xFF, 0xFE] bytes then 2 else 0))),
        FileEncoding.Utf16Le) := rfl

theorem load_file_utf16be_eq (ansiDec : List Nat → List Char) (bytes : List Nat) :
    load_file ansiDec bytes FileEncoding.Utf16Be =
      some (utf16LossyDecode (chunksToU16BE
        (bytes.drop (if startsWithBytes [0xFE, 0xFF] bytes then 2 else 0))),
        FileEncoding.Utf16Be) := rfl

theorem load_file_auto_eq (ansiDec : List Nat → List Char) (bytes : List Nat) :
    load_file ansiDec bytes FileEncoding.Auto =
      if startsWithBytes [0xFF, 0xFE] bytes then
        some (utf16LossyDecode (chunksToU16LE (bytes.drop 2)), FileEncoding.Utf16Le)
      else if startsWithBytes [0xFE, 0xFF] bytes then
        some (utf16LossyDecode (chunksToU16BE (bytes.drop 2)), FileEncoding.Utf16Be)
      else if startsWithBytes [0xEF, 0xBB, 0xBF] bytes then
        (utf8Decode (bytes.drop 3)).map (fun content => (content, FileEncoding.Utf8Bom))
      else
        match utf8Decode bytes with
        | some content => some (content, FileEncoding.Utf8)
        | none => some (ansiDec bytes, FileEncoding.ShiftJis) := rfl

theorem startsWith2_cases (a b : Nat) (l : List Nat) :
    startsWithBytes [a, b] l = true ↔ ∃ t, l = a :: b :: t := by
  cases l with
  | nil => simp [startsWithBytes]
  | cons x xs =>
    cases xs with
    | nil => simp [startsWithBytes]
    | cons y ys =>
      simp only [startsWithBytes, Bool.and_eq_true, beq_iff_eq]
      constructor
      · rintro ⟨h1, h2, _⟩
        exact ⟨ys, by rw [h1, h2]⟩
      · rintro ⟨t, ht⟩
        injection ht with hx htail
        injection htail with hy _
        exact ⟨hx.symm, hy.symm, trivial⟩

theorem startsWith2_dropLast {a b : Nat} {l : List Nat}
    (h : startsWithBytes [a, b] l.dropLast = true) : startsWithBytes [a, b] l = true := by
  obtain ⟨t, ht⟩ := (startsWith2_cases a b l.dropLast).mp h
  apply (startsWith2_cases a b l).mpr
  cases l with
  | nil => simp at ht
  | cons x xs =>
    cases xs with
    | nil => simp at ht
    | cons y ys =>
      rw [show (x :: y :: ys).dropLast = x :: (y :: ys).dropLast from rfl] at ht
      injection ht with hx htail
      cases ys with
      | nil => simp at htail
      | cons z zs =>
        rw [show (y :: z :: zs).dropLast = y :: (z :: zs).dropLast from rfl] at htail
        injection htail with hy _
        exact ⟨z :: zs, by rw [hx, hy]⟩

theorem dropLast_cons_cons (x y : Nat) (r : Nat) (rs : List Nat) :
    (x :: y :: r :: rs).dropLast = x :: y :: (r :: rs).dropLast := rfl

/-- Chunking into 16-bit units ignores the trailing byte of an odd-length
buffer: the result is the same as for the buffer without its last byte. -/
theorem chunksToU16LE_odd :
    ∀ (l : List Nat), l.length % 2 = 1 → chunksToU16LE l = chunksToU16LE l.dropLast
  | [], h => by simp at h
  | [_], _ => rfl
  | [_, _], h => by simp at h
  | b0 :: b1 :: r :: rs, h => by
    have hr : (r :: rs).length % 2 = 1 := by
      simp only [List.length_cons] at h ⊢
      omega
    rw [dropLast_cons_cons]
    rw [show chunksToU16LE (b0 :: b1 :: r :: rs) =
      (b0 + b1 * 256) :: chunksToU16LE (r :: rs) from rfl]
    rw [show chunksToU16LE (b0 :: b1 :: (r :: rs).dropLast) =
      (b0 + b1 * 256) :: chunksToU16LE ((r :: rs).dropLast) from rfl]
    rw [chunksToU16LE_odd (r :: rs) hr]

theorem chunksToU16BE_odd :
    ∀ (l : List Nat), l.length % 2 = 1 → chunksToU16BE l = chunksToU16BE l.dropLast
  | [], h => by simp at h
  | [_], _ => rfl
  | [_, _], h => by simp at h
  | b0 :: b1 :: r :: rs, h => by
    have hr : (r :: rs).length % 2 = 1 := by
      simp only [List.length_cons] at h ⊢
      omega
    rw [dropLast_cons_cons]
    rw [show chunksToU16BE (b0 :: b1 :: r :: rs) =
      (b0 * 256 + b1) :: chunksToU16BE (r :: rs) from rfl]
    rw [show chunksToU16BE (b0 :: b1 :: (r :: rs).dropLast) =
      (b0 * 256 + b1) :: chunksToU16BE ((r :: rs).dropLast) from rfl]
    rw [chunksToU16BE_odd (r :: rs) hr]

/-- The `word & 0xFF` / `word >> 8` pushes of the save loop are exactly the
little-endian two-byte serialisation of each code unit. -/
theorem utf16leBytes_eq_flatMap (ws : List Nat) :
    utf16leBytes ws = ws.flatMap (fun w => [w % 256, w / 256]) := by
  induction ws with
  | nil => rfl
  | cons w rest ih =>
    simp only [utf16leBytes, List.flatMap_cons, ih, and_255_eq_mod, shiftRight_8_eq_div,
      List.cons_append, List.nil_append]

/-- The `word >> 8` / `word & 0xFF` pushes of the save loop are exactly the
big-endian two-byte serialisation of each code unit. -/
theorem utf16beBytes_eq_flatMap (ws : List Nat) :
    utf16beBytes ws = ws.flatMap (fun w => [w / 256, w % 256]) := by
  induction ws with
  | nil => rfl
  | cons w rest ih =>
    simp only [utf16beBytes, List.flatMap_cons, ih, and_255_eq_mod, shiftRight_8_eq_div,
      List.cons_append, List.nil_append]

/-! ## Claims about the position mapper -/

/-- C2 (counterexample): in `"a\r\nb"`, the offset of the `'\r'` code unit is
1, and `calculate_line_column` returns `(1, 2)` — the position at the end of
line 1 — not `(2, 1)`, the start of the next line that the claim predicts. -/
theorem claim2_counterexample :
    calculate_line_column ['a', '\r', '\n', 'b'] 1 = (1, 2) ∧
    ¬calculate_line_column ['a', '\r', '\n', 'b'] 1 = (2, 1) := by decide

/-- C2 (amended): for every text containing a CRLF pair, calling the locator
with the offset one past the `'\r'` code unit (the offset of the `'\n'`, i.e.
strictly inside the break) returns the start of the next line: one more than
the line on which the break sits (the line reached after walking the prefix),
and column 1. -/
theorem claim2_amended_crlf_break (pre post : List Char) :
    calculate_line_column (pre ++ '\r' :: '\n' :: post) (utf16Len pre + 1) =
      ((walkAll pre 1 1).1 + 1, 1) := by
  show lcLoop (utf16Len pre + 1) (pre ++ '\r' :: '\n' :: post) 1 1 0 = _
  have hpre := utf16Len_nonneg pre
  rw [lcLoop_append pre ('\r' :: '\n' :: post) 1 1 0 (utf16Len pre + 1)
    (by omega) (by simp)]
  rw [lcLoop_crlf (utf16Len pre + 1) (walkAll pre 1 1).1 (walkAll pre 1 1).2
    (0 + utf16Len pre) post (by omega)]
  rw [if_pos (by omega)]

/-- C5 (counterexample): `"a\x00b"` contains no `'\r'` and no `'\n'`, the
offset 2 is within the UTF-16 range, yet the result column is 2, not
`2 + 1 = 3`, because the NUL character advances the position without
advancing the column. -/
theorem claim5_counterexample :
    (∀ c ∈ ['a', '\x00', 'b'], c ≠ '\r' ∧ c ≠ '\n') ∧
    (0 : Int) ≤ 2 ∧ (2 : Int) ≤ utf16Len ['a', '\x00', 'b'] ∧
    calculate_line_column ['a', '\x00', 'b'] 2 = (1, 2) ∧
    ((1 : Int), (2 : Int)) ≠ ((1 : Int), (2 : Int) + 1) := by decide

/-- C5 (amended): for every text containing no `'\r'`, no `'\n'`, no NUL and
no supplementary-plane character, and every offset `k` between 0 and the
text's total UTF-16 length, the locator returns line 1 and column `k + 1`. -/
theorem claim5_amended_no_breaks_column (text : List Char) (k : Int)
    (hall : ∀ c ∈ text, c ≠ '\r' ∧ c ≠ '\n' ∧ c ≠ '\x00' ∧ c.toNat ≤ 0xFFFF)
    (h0 : 0 ≤ k) (hle : k ≤ utf16Len text) :
    calculate_line_column text k = (1, k + 1) := by
  by_cases hk : k = 0
  · subst hk
    have h := lcLoop_stop 0 text 1 1 0 (by omega)
    show lcLoop 0 text 1 1 0 = (1, 0 + 1)
    rw [h]
    norm_num
  · have hrec := lcLoop_flat text 1 0 k hall (by omega) (by omega)
    show lcLoop k text 1 1 0 = (1, k + 1)
    rw [hrec]
    have harith : (1 : Int) + (k - 0) = k + 1 := by ring
    rw [harith]

/-- C5 witness at a concrete input. -/
theorem claim5_amended_no_breaks_column_witness :
    calculate_line_column ['h', 'i'] 1 = (1, 1 + 1) :=
  claim5_amended_no_breaks_column ['h', 'i'] 1 (by decide) (by decide) (by decide)

/-- C6: a supplementary-plane scalar (code point above U+FFFF) traversed
before the cursor advances the loop's UTF-16 position counter by 2 but its
column counter by only 1. -/
theorem claim6_surrogate_width (cursor line col pos : Int) (c : Char)
    (rest : List Char) (hsupp : 0xFFFF < c.toNat) (hlt : pos < cursor) :
    lcLoop cursor (c :: rest) line col pos =
      if pos + 2 ≥ cursor then (line, col + 1)
      else lcLoop cursor rest line (col + 1) (pos + 2) := by
  have h1 : c ≠ '\r' := by
    intro h
    rw [h] at hsupp
    exact absurd hsupp (by decide)
  have h2 : c ≠ '\n' := by
    intro h
    rw [h] at hsupp
    exact absurd hsupp (by decide)
  have h3 : c ≠ '\x00' := by
    intro h
    rw [h] at hsupp
    exact absurd hsupp (by decide)
  have hw : (if 0xFFFF < c.toNat then (2 : Int) else 1) = 2 := if_pos hsupp
  rw [lcLoop_ord cursor line col pos c rest (by omega) h1 h2 h3, hw]

/-- C6 witness: U+1F600 from position 0 with the cursor far away. -/
theorem claim6_surrogate_width_witness :
    lcLoop 5 [Char.ofNat 0x1F600] 1 1 0 =
      if (0 : Int) + 2 ≥ 5 then (1, 1 + 1) else lcLoop 5 [] 1 (1 + 1) (0 + 2) :=
  claim6_surrogate_width 5 1 1 0 (Char.ofNat 0x1F600) [] (by decide) (by decide)

/-- C7: the locator is a total pure function of its arguments (it is a Lean
function, so identical arguments give identical results and there is no
failure value), and for every offset at or beyond the total UTF-16 length it
returns the end-of-text position, the same pair as at offset
`utf16Len text`. -/
theorem claim7_out_of_range_clamp (text : List Char) (k : Int)
    (hk : utf16Len text ≤ k) :
    calculate_line_column text k = calculate_line_column text (utf16Len text) := by
  have hn := utf16Len_nonneg text
  show lcLoop k text 1 1 0 = lcLoop (utf16Len text) text 1 1 0
  rw [lcLoop_ge_walkAll text 1 1 0 k (by omega),
    lcLoop_ge_walkAll text 1 1 0 (utf16Len text) (by omega)]

/-- C7 witness at a concrete input. -/
theorem claim7_out_of_range_clamp_witness :
    calculate_line_column ['a', 'b'] 99 = calculate_line_column ['a', 'b'] 2 := by
  have h := claim7_out_of_range_clamp ['a', 'b'] 99 (by decide)
  have h2 : utf16Len ['a', 'b'] = 2 := by decide
  rw [h2] at h
  exact h

/-- C9: every negative cursor offset yields `(1, 1)`, the same result as
offset 0, because the stop condition `pos ≥ cursor_pos` already holds before
any character is processed. -/
theorem claim9_negative_offset (text : List Char) (k : Int) (hk : k < 0) :
    calculate_line_column text k = (1, 1) ∧ calculate_line_column text 0 = (1, 1) :=
  ⟨lcLoop_stop k text 1 1 0 (by omega), lcLoop_stop 0 text 1 1 0 (by omega)⟩

/-- C9 witness at a concrete input. -/
theorem claim9_negative_offset_witness :
    calculate_line_column ['a'] (-5) = (1, 1) ∧ calculate_line_column ['a'] 0 = (1, 1) :=
  claim9_negative_offset ['a'] (-5) (by decide)

/-! ## Claims about the encoding codec -/

/-- Generic form of the odd-length body argument: with a 2-byte BOM test in
front, chunking that ignores the last byte of an odd buffer gives the same
units for the buffer and for the buffer without its final byte. -/
theorem body_odd (chunk : List Nat → List Nat)
    (hchunk : ∀ l : List Nat, l.length % 2 = 1 → chunk l = chunk l.dropLast)
    (a b : Nat) (bytes : List Nat) (hodd : bytes.length % 2 = 1) :
    chunk (bytes.drop (if startsWithBytes [a, b] bytes then 2 else 0)) =
      chunk (bytes.dropLast.drop (if startsWithBytes [a, b] bytes.dropLast then 2 else 0)) := by
  by_cases hb : startsWithBytes [a, b] bytes = true
  · obtain ⟨t, rfl⟩ := (startsWith2_cases a b bytes).mp hb
    have hlt : t.length % 2 = 1 := by
      simp only [List.length_cons] at hodd
      omega
    obtain ⟨r, rs, rfl⟩ : ∃ r rs, t = r :: rs := by
      cases t with
      | nil => simp at hlt
      | cons r rs => exact ⟨r, rs, rfl⟩
    rw [dropLast_cons_cons]
    rw [if_pos hb,
      if_pos (show startsWithBytes [a, b] (a :: b :: (r :: rs).dropLast) = true by
        simp [startsWithBytes])]
    rw [show (a :: b :: r :: rs).drop 2 = r :: rs from rfl,
      show (a :: b :: (r :: rs).dropLast).drop 2 = (r :: rs).dropLast from rfl]
    exact hchunk (r :: rs) hlt
  · have hb' : ¬startsWithBytes [a, b] bytes.dropLast = true := fun hc =>
      hb (startsWith2_dropLast hc)
    rw [if_neg hb, if_neg hb']
    rw [List.drop_zero, List.drop_zero]
    exact hchunk bytes hodd

/-- C1 (counterexample): the byte buffer `EF BB BF FF` is not valid strict
UTF-8, and loading it with requested tag `Auto` FAILS — the sniffer sees the
UTF-8 BOM, strips it, and the strict decode of the remaining `FF` errors, so
`Auto` resolution failure is not impossible. -/
theorem claim1_counterexample :
    utf8Decode [0xEF, 0xBB, 0xBF, 0xFF] = none ∧
    load_file (fun _ => []) [0xEF, 0xBB, 0xBF, 0xFF] FileEncoding.Auto = none := by decide

/-- C1 (amended): for every byte buffer that is not valid strict UTF-8, load
with requested tag UTF-8 fails with a decode error, and load with tag `Auto`
succeeds once the underlying read succeeds — unless the buffer starts with
the UTF-8 BOM `EF BB BF` and the bytes after it are themselves invalid
strict UTF-8, in which case the BOM branch's strict decode fails. -/
theorem claim1_amended_strict_and_auto (ansiDec : List Nat → List Char)
    (bytes : List Nat) (hbad : utf8Decode bytes = none) :
    load_file ansiDec bytes FileEncoding.Utf8 = none ∧
    (¬(startsWithBytes [0xEF, 0xBB, 0xBF] bytes = true ∧
        utf8Decode (bytes.drop 3) = none) →
      (load_file ansiDec bytes FileEncoding.Auto).isSome = true) := by
  constructor
  · rw [load_file_utf8_eq, hbad]
    rfl
  · intro hnot
    rw [load_file_auto_eq]
    by_cases h1 : startsWithBytes [0xFF, 0xFE] bytes = true
    · rw [if_pos h1]
      rfl
    · rw [if_neg h1]
      by_cases h2 : startsWithBytes [0xFE, 0xFF] bytes = true
      · rw [if_pos h2]
        rfl
      · rw [if_neg h2]
        by_cases h3 : startsWithBytes [0xEF, 0xBB, 0xBF] bytes = true
        · rw [if_pos h3]
          cases hdec : utf8Decode (bytes.drop 3) with
          | none => exact absurd ⟨h3, hdec⟩ hnot
          | some s => rfl
        · rw [if_neg h3, hbad]
          rfl

/-- C1 witness: `FF` alone is invalid UTF-8, is rejected by the UTF-8 load,
and is absorbed by the `Auto` fallback. -/
theorem claim1_amended_strict_and_auto_witness :
    load_file (fun _ => []) [0xFF] FileEncoding.Utf8 = none ∧
    (load_file (fun _ => []) [0xFF] FileEncoding.Auto).isSome = true :=
  ⟨(claim1_amended_strict_and_auto (fun _ => []) [0xFF] (by decide)).1,
    (claim1_amended_strict_and_auto (fun _ => []) [0xFF] (by decide)).2 (by decide)⟩

/-- C3: for each tag in {UTF-8, UTF-8-BOM, UTF-16 LE, UTF-16 BE}, loading the
bytes produced by save under the same tag returns exactly the original text
(for arbitrary Unicode text, BMP or supplementary), with the same resolved
tag. -/
theorem claim3_roundtrip (ansiDec : List Nat → List Char)
    (ansiEnc : List Char → List Nat) (text : List Char) :
    load_file ansiDec (save_file ansiEnc text FileEncoding.Utf8) FileEncoding.Utf8 =
      some (text, FileEncoding.Utf8) ∧
    load_file ansiDec (save_file ansiEnc text FileEncoding.Utf8Bom) FileEncoding.Utf8Bom =
      some (text, FileEncoding.Utf8Bom) ∧
    load_file ansiDec (save_file ansiEnc text FileEncoding.Utf16Le) FileEncoding.Utf16Le =
      some (text, FileEncoding.Utf16Le) ∧
    load_file ansiDec (save_file ansiEnc text FileEncoding.Utf16Be) FileEncoding.Utf16Be =
      some (text, FileEncoding.Utf16Be) := by
  refine ⟨?_, ?_, ?_, ?_⟩
  · rw [show save_file ansiEnc text FileEncoding.Utf8 = encodeUtf8 text from rfl,
      load_file_utf8_eq, utf8Decode_encode]
    rfl
  · rw [show save_file ansiEnc text FileEncoding.Utf8Bom =
      0xEF :: 0xBB :: 0xBF :: encodeUtf8 text from rfl, load_file_utf8bom_eq]
    rw [if_pos (show startsWithBytes [0xEF, 0xBB, 0xBF]
      (0xEF :: 0xBB :: 0xBF :: encodeUtf8 text) = true by simp [startsWithBytes])]
    rw [show (0xEF :: 0xBB :: 0xBF :: encodeUtf8 text).drop 3 = encodeUtf8 text from rfl,
      utf8Decode_encode]
    rfl
  · rw [show save_file ansiEnc text FileEncoding.Utf16Le =
      0xFF :: 0xFE :: utf16leBytes (encodeUtf16 text) from rfl, load_file_utf16le_eq]
    rw [if_pos (show startsWithBytes [0xFF, 0xFE]
      (0xFF :: 0xFE :: utf16leBytes (encodeUtf16 text)) = true by simp [startsWithBytes])]
    rw [show (0xFF :: 0xFE :: utf16leBytes (encodeUtf16 text)).drop 2 =
      utf16leBytes (encodeUtf16 text) from rfl,
      chunksToU16LE_utf16leBytes, utf16LossyDecode_encode]
  · rw [show save_file ansiEnc text FileEncoding.Utf16Be =
      0xFE :: 0xFF :: utf16beBytes (encodeUtf16 text) from rfl, load_file_utf16be_eq]
    rw [if_pos (show startsWithBytes [0xFE, 0xFF]
      (0xFE :: 0xFF :: utf16beBytes (encodeUtf16 text)) = true by simp [startsWithBytes])]
    rw [show (0xFE :: 0xFF :: utf16beBytes (encodeUtf16 text)).drop 2 =
      utf16beBytes (encodeUtf16 text) from rfl,
      chunksToU16BE_utf16beBytes, utf16LossyDecode_encode]

/-- C4: `Auto` detection follows the fixed priority order — UTF-16 LE BOM,
then UTF-16 BE BOM, then UTF-8 BOM, then strict UTF-8, then the permissive
ANSI fallback — returning the matching resolved tag; and a UTF-16 LE save
reloaded with `Auto` resolves to UTF-16 LE with identical text. -/
theorem claim4_auto_priority (ansiDec : List Nat → List Char)
    (ansiEnc : List Char → List Nat) (bytes : List Nat) (text : List Char) :
    (startsWithBytes [0xFF, 0xFE] bytes = true →
      load_file ansiDec bytes FileEncoding.Auto =
        some (utf16LossyDecode (chunksToU16LE (bytes.drop 2)), FileEncoding.Utf16Le)) ∧
    (startsWithBytes [0xFF, 0xFE] bytes = false →
      startsWithBytes [0xFE, 0xFF] bytes = true →
      load_file ansiDec bytes FileEncoding.Auto =
        some (utf16LossyDecode (chunksToU16BE (bytes.drop 2)), FileEncoding.Utf16Be)) ∧
    (startsWithBytes [0xFF, 0xFE] bytes = false →
      startsWithBytes [0xFE, 0xFF] bytes = false →
      startsWithBytes [0xEF, 0xBB, 0xBF] bytes = true →
      load_file ansiDec bytes FileEncoding.Auto =
        (utf8Decode (bytes.drop 3)).map (fun s => (s, FileEncoding.Utf8Bom))) ∧
    (startsWithBytes [0xFF, 0xFE] bytes = false →
      startsWithBytes [0xFE, 0xFF] bytes = false →
      startsWithBytes [0xEF, 0xBB, 0xBF] bytes = false →
      ∀ s, utf8Decode bytes = some s →
        load_file ansiDec bytes FileEncoding.Auto = some (s, FileEncoding.Utf8)) ∧
    (startsWithBytes [0xFF, 0xFE] bytes = false →
      startsWithBytes [0xFE, 0xFF] bytes = false →
      startsWithBytes [0xEF, 0xBB, 0xBF] bytes = false →
      utf8Decode bytes = none →
        load_file ansiDec bytes FileEncoding.Auto =
          some (ansiDec bytes, FileEncoding.ShiftJis)) ∧
    load_file ansiDec (save_file ansiEnc text FileEncoding.Utf16Le) FileEncoding.Auto =
      some (text, FileEncoding.Utf16Le) := by
  refine ⟨?_, ?_, ?_, ?_, ?_, ?_⟩
  · intro h1
    rw [load_file_auto_eq, if_pos h1]
  · intro h1 h2
    rw [load_file_auto_eq, if_neg (by simp [h1]), if_pos h2]
  · intro h1 h2 h3
    rw [load_file_auto_eq, if_neg (by simp [h1]), if_neg (by simp [h2]), if_pos h3]
  · intro h1 h2 h3 s hs
    rw [load_file_auto_eq, if_neg (by simp [h1]), if_neg (by simp [h2]),
      if_neg (by simp [h3]), hs]
  · intro h1 h2 h3 hnone
    rw [load_file_auto_eq, if_neg (by simp [h1]), if_neg (by simp [h2]),
      if_neg (by simp [h3]), hnone]
  · rw [show save_file ansiEnc text FileEncoding.Utf16Le =
      0xFF :: 0xFE :: utf16leBytes (encodeUtf16 text) from rfl, load_file_auto_eq]
    rw [if_pos (show startsWithBytes [0xFF, 0xFE]
      (0xFF :: 0xFE :: utf16leBytes (encodeUtf16 text)) = true by simp [startsWithBytes])]
    rw [show (0xFF :: 0xFE :: utf16leBytes (encodeUtf16 text)).drop 2 =
      utf16leBytes (encodeUtf16 text) from rfl,
      chunksToU16LE_utf16leBytes, utf16LossyDecode_encode]

/-- C4 witness: a concrete LE-BOM buffer takes the first branch, and a
concrete UTF-16 LE save reloads under `Auto` as UTF-16 LE. -/
theorem claim4_auto_priority_witness :
    load_file (fun _ => []) [0xFF, 0xFE, 0x41, 0x00] FileEncoding.Auto =
      some (utf16LossyDecode (chunksToU16LE ([0xFF, 0xFE, 0x41, 0x00].drop 2)),
        FileEncoding.Utf16Le) ∧
    load_file (fun _ => []) (save_file (fun _ => []) ['A'] FileEncoding.Utf16Le)
        FileEncoding.Auto = some (['A'], FileEncoding.Utf16Le) :=
  ⟨(claim4_auto_priority (fun _ => []) (fun _ => []) [0xFF, 0xFE, 0x41, 0x00] ['A']).1
      (by decide),
    (claim4_auto_priority (fun _ => []) (fun _ => [])
      [0xFF, 0xFE, 0x41, 0x00] ['A']).2.2.2.2.2⟩

/-- C8: save emits exactly the specified byte streams — raw UTF-8 with no BOM
for UTF-8 and Auto, `EF BB BF` plus UTF-8 for UTF-8-BOM, `FF FE` plus each
UTF-16 code unit as two little-endian bytes for UTF-16 LE, and `FE FF` plus
big-endian pairs for UTF-16 BE. -/
theorem claim8_save_bytes (ansiEnc : List Char → List Nat) (text : List Char) :
    save_file ansiEnc text FileEncoding.Utf8 = encodeUtf8 text ∧
    save_file ansiEnc text FileEncoding.Auto = encodeUtf8 text ∧
    save_file ansiEnc text FileEncoding.Utf8Bom = 0xEF :: 0xBB :: 0xBF :: encodeUtf8 text ∧
    save_file ansiEnc text FileEncoding.Utf16Le =
      0xFF :: 0xFE :: (encodeUtf16 text).flatMap (fun w => [w % 256, w / 256]) ∧
    save_file ansiEnc text FileEncoding.Utf16Be =
      0xFE :: 0xFF :: (encodeUtf16 text).flatMap (fun w => [w / 256, w % 256]) := by
  refine ⟨rfl, rfl, rfl, ?_, ?_⟩
  · rw [show save_file ansiEnc text FileEncoding.Utf16Le =
      0xFF :: 0xFE :: utf16leBytes (encodeUtf16 text) from rfl, utf16leBytes_eq_flatMap]
  · rw [show save_file ansiEnc text FileEncoding.Utf16Be =
      0xFE :: 0xFF :: utf16beBytes (encodeUtf16 text) from rfl, utf16beBytes_eq_flatMap]

/-- C10: on a buffer of odd length, UTF-16 LE and BE loads succeed and decode
exactly what they decode with the final unpaired byte removed (only complete
2-byte chunks are used), and the UTF-16 branches of `Auto` detection do the
same. -/
theorem claim10_odd_utf16_buffer (ansiDec : List Nat → List Char) (bytes : List Nat)
    (hodd : bytes.length % 2 = 1) :
    load_file ansiDec bytes FileEncoding.Utf16Le =
      load_file ansiDec bytes.dropLast FileEncoding.Utf16Le ∧
    load_file ansiDec bytes FileEncoding.Utf16Be =
      load_file ansiDec bytes.dropLast FileEncoding.Utf16Be ∧
    (load_file ansiDec bytes FileEncoding.Utf16Le).isSome = true ∧
    (load_file ansiDec bytes FileEncoding.Utf16Be).isSome = true ∧
    (startsWithBytes [0xFF, 0xFE] bytes = true →
      load_file ansiDec bytes FileEncoding.Auto =
        load_file ansiDec bytes.dropLast FileEncoding.Auto) ∧
    (startsWithBytes [0xFE, 0xFF] bytes = true →
      load_file ansiDec bytes FileEncoding.Auto =
        load_file ansiDec bytes.dropLast FileEncoding.Auto) := by
  refine ⟨?_, ?_, rfl, rfl, ?_, ?_⟩
  · rw [load_file_utf16le_eq, load_file_utf16le_eq,
      body_odd chunksToU16LE chunksToU16LE_odd 0xFF 0xFE bytes hodd]
  · rw [load_file_utf16be_eq, load_file_utf16be_eq,
      body_odd chunksToU16BE chunksToU16BE_odd 0xFE 0xFF bytes hodd]
  · intro hb
    obtain ⟨t, rfl⟩ := (startsWith2_cases 0xFF 0xFE bytes).mp hb
    have hlt : t.length % 2 = 1 := by
      simp only [List.length_cons] at hodd
      omega
    obtain ⟨r, rs, rfl⟩ : ∃ r rs, t = r :: rs := by
      cases t with
      | nil => simp at hlt
      | cons r rs => exact ⟨r, rs, rfl⟩
    rw [dropLast_cons_cons, load_file_auto_eq, load_file_auto_eq]
    rw [if_pos hb, if_pos (show startsWithBytes [0xFF, 0xFE]
      (0xFF :: 0xFE :: (r :: rs).dropLast) = true by simp [startsWithBytes])]
    rw [show (0xFF :: 0xFE :: r :: rs).drop 2 = r :: rs from rfl,
      show (0xFF :: 0xFE :: (r :: rs).dropLast).drop 2 = (r :: rs).dropLast from rfl,
      chunksToU16LE_odd (r :: rs) hlt]
  · intro hb
    obtain ⟨t, rfl⟩ := (startsWith2_cases 0xFE 0xFF bytes).mp hb
    have hlt : t.length % 2 = 1 := by
      simp only [List.length_cons] at hodd
      omega
    obtain ⟨r, rs, rfl⟩ : ∃ r rs, t = r :: rs := by
      cases t with
      | nil => simp at hlt
      | cons r rs => exact ⟨r, rs, rfl⟩
    rw [dropLast_cons_cons, load_file_auto_eq, load_file_auto_eq]
    rw [if_neg (show ¬startsWithBytes [0xFF, 0xFE] (0xFE :: 0xFF :: r :: rs) = true by
        simp [startsWithBytes]),
      if_neg (show ¬startsWithBytes [0xFF, 0xFE] (0xFE :: 0xFF :: (r :: rs).dropLast) = true by
        simp [startsWithBytes])]
    rw [if_pos hb, if_pos (show startsWithBytes [0xFE, 0xFF]
      (0xFE :: 0xFF :: (r :: rs).dropLast) = true by simp [startsWithBytes])]
    rw [show (0xFE :: 0xFF :: r :: rs).drop 2 = r :: rs from rfl,
      show (0xFE :: 0xFF :: (r :: rs).dropLast).drop 2 = (r :: rs).dropLast from rfl,
      chunksToU16BE_odd (r :: rs) hlt]

/-- C10 witness: `FF FE 41` decodes as UTF-16 LE exactly like `FF FE`. -/
theorem claim10_odd_utf16_buffer_witness :
    load_file (fun _ => []) [0xFF, 0xFE, 0x41] FileEncoding.Utf16Le =
      load_file (fun _ => []) ([0xFF, 0xFE, 0x41].dropLast) FileEncoding.Utf16Le ∧
    (load_file (fun _ => []) [0xFF, 0xFE, 0x41] FileEncoding.Utf16Le).isSome = true :=
  ⟨(claim10_odd_utf16_buffer (fun _ => []) [0xFF, 0xFE, 0x41] (by decide)).1,
    (claim10_odd_utf16_buffer (fun _ => []) [0xFF, 0xFE, 0x41] (by decide)).2.2.1⟩
